import Mathlib

/-!
Shallow embedding of the computational core of `src/app.py` (SR-Boltzmann-Lab).

The program extracts a free-energy value and a specific-rotation value from
Gaussian log texts with `re.search`, pairs the two independently uploaded file
collections by a filename-derived identifier, and Boltzmann-averages the
rotation values over the paired ("ready") records.

Conventions of the embedding:
* Text blobs and filenames are `List Char` (ASCII contents, as in the logs the
  program consumes; Python's `str.lower` and `\d`/`\s` are modelled on ASCII).
* Python `float` values produced by `float(match.group(1))` are modelled as
  exact rationals `ℚ` (the captured text is always a finite decimal); the
  Boltzmann arithmetic of the pandas block is modelled over the real numbers.
* `re.search` is modelled as a leftmost-position search; the three concrete
  patterns of the program are compiled by hand into deterministic matchers
  (their element classes are pairwise disjoint at every choice point, so the
  backtracking of the Python engine never changes the outcome).
-/

namespace SRB

/-- ASCII digits, Python regex `\d` on ASCII input. -/
def digitChars : List Char := "0123456789".toList

/-- Membership in `\d`. -/
def isDig (c : Char) : Bool := digitChars.contains c

/-- Python regex `\s` on ASCII input: space, tab, newline, carriage return,
vertical tab, form feed. -/
def spaceChars : List Char := [' ', '\t', '\n', '\r', '\x0b', '\x0c']

/-- Membership in `\s`. -/
def isSpc (c : Char) : Bool := spaceChars.contains c

/-- Numeric value of a digit string, most significant first. -/
def digitsVal (l : List Char) : Nat :=
  l.foldl (fun a c => 10 * a + (c.toNat - 48)) 0

/-- Match the capture group `-?\d+\.\d+` at the head of `s`; on success return
the parsed value (Python `float` of the captured text, modelled exactly in `ℚ`)
and the rest of the input.  Greedy `\d+` runs are maximal-munch; since a digit
is never `.`, and the following context in every pattern of the program starts
with a non-digit class, this equals the Python engine's answer. -/
def matchNumAt (s : List Char) : Option (ℚ × List Char) :=
  let neg : Bool := match s with
    | '-' :: _ => true
    | _ => false
  let s1 : List Char := match s with
    | '-' :: t => t
    | _ => s
  let d1 := s1.takeWhile isDig
  let s2 := s1.dropWhile isDig
  if d1 = [] then none
  else
    match s2 with
    | '.' :: s3 =>
      let d2 := s3.takeWhile isDig
      let s4 := s3.dropWhile isDig
      if d2 = [] then none
      else
        some ((if neg then (-1 : ℚ) else 1) *
          ((digitsVal d1 : ℚ) + (digitsVal d2 : ℚ) / (10 : ℚ) ^ d2.length), s4)
    | _ => none

/-- `\s+` followed by the number capture: the tail shared by all three
patterns after their `=` sign. -/
def spacesNum (s : List Char) : Option ℚ :=
  let sp := s.takeWhile isSpc
  let r := s.dropWhile isSpc
  if sp = [] then none else (matchNumAt r).map Prod.fst

/-- Leftmost-position search: Python `re.search` tries every start position
from the left and keeps the first success.  `f` is the compiled "match here"
function of one pattern. -/
def searchOpt {α : Type} (f : List Char → Option α) : List Char → Option α
  | [] => f []
  | c :: t =>
    match f (c :: t) with
    | some v => some v
    | none => searchOpt f t

/-- Literal of the first energy pattern. -/
def lit1 : List Char := "Sum of electronic and thermal Free Energies=".toList

/-- Literal of the second energy pattern. -/
def lit2 : List Char := "SCF Done:".toList

/-- Literal of the rotation pattern. -/
def lit3 : List Char := "[Alpha]".toList

/-- Literal `deg.` ending the rotation pattern. -/
def degLit : List Char := "deg.".toList

/-- Match `Sum of electronic and thermal Free Energies=\s+(-?\d+\.\d+)` at the
current position (app.py line 19). -/
def tryE1 (s : List Char) : Option ℚ :=
  if lit1.isPrefixOf s then spacesNum (s.drop lit1.length) else none

/-- The lazy gap `.*?=\s+(-?\d+\.\d+)`: skip the shortest run of non-newline
characters after which a literal `=` is followed by `\s+` and the number. -/
def scanEq : List Char → Option ℚ
  | [] => none
  | c :: t =>
    match (if c = '=' then spacesNum t else none) with
    | some v => some v
    | none => if c = '\n' then none else scanEq t

/-- Match `SCF Done:.*?=\s+(-?\d+\.\d+)` at the current position
(app.py line 21). -/
def tryE2 (s : List Char) : Option ℚ :=
  if lit2.isPrefixOf s then scanEq (s.drop lit2.length) else none

/-- After the `=` of the rotation pattern: `\s+(-?\d+\.\d+)\s+deg\.`. -/
def srTail (s : List Char) : Option ℚ :=
  let sp := s.takeWhile isSpc
  let r := s.dropWhile isSpc
  if sp = [] then none
  else
    match matchNumAt r with
    | none => none
    | some (v, rest) =>
      let sp2 := rest.takeWhile isSpc
      let r2 := rest.dropWhile isSpc
      if sp2 = [] then none
      else if degLit.isPrefixOf r2 then some v else none

/-- The lazy gap of the rotation pattern: shortest non-newline run to an `=`
whose tail matches `\s+(-?\d+\.\d+)\s+deg\.`. -/
def scanEqSR : List Char → Option ℚ
  | [] => none
  | c :: t =>
    match (if c = '=' then srTail t else none) with
    | some v => some v
    | none => if c = '\n' then none else scanEqSR t

/-- Match `\[Alpha\].*?=\s+(-?\d+\.\d+)\s+deg\.` at the current position
(app.py line 26). -/
def trySR (s : List Char) : Option ℚ :=
  if lit3.isPrefixOf s then scanEqSR (s.drop lit3.length) else none

/-- `extract_energy` (app.py lines 17-22): search the free-energy summary
pattern, fall back to the SCF pattern, `None` when neither matches. -/
def extract_energy (content : List Char) : Option ℚ :=
  match searchOpt tryE1 content with
  | some v => some v
  | none => searchOpt tryE2 content

/-- `extract_sr` (app.py lines 24-27). -/
def extract_sr (content : List Char) : Option ℚ :=
  searchOpt trySR content

/-- Python `str.lower` on ASCII text. -/
def pyLower (s : List Char) : List Char := s.map Char.toLower

/-- Python `str.replace(pat, "")`, fuelled so that the recursion is
structural (every step consumes at least one character, so any fuel of at
least the input length gives the untruncated answer): delete every
non-overlapping occurrence of `pat`, scanning left to right and continuing
after each deleted occurrence. -/
def replaceAllFuel (pat : List Char) : Nat → List Char → List Char
  | 0, s => s
  | _ + 1, [] => []
  | n + 1, c :: rest =>
    if pat.isPrefixOf (c :: rest) ∧ pat ≠ [] then
      replaceAllFuel pat n (rest.drop (pat.length - 1))
    else
      c :: replaceAllFuel pat n rest

/-- Python `str.replace(pat, "")` on the whole input. -/
def replaceAll (pat : List Char) (s : List Char) : List Char :=
  replaceAllFuel pat s.length s

/-- `.log` as written in app.py line 35. -/
def dotLog : List Char := ".log".toList

/-- `.out` as written in app.py line 35. -/
def dotOut : List Char := ".out".toList

/-- Match `(\d+)$` at the current position: a nonempty maximal digit run that
reaches the end of the input (Python `$` also matches just before a final
newline). -/
def tryDigEnd (s : List Char) : Option (List Char) :=
  let d := s.takeWhile isDig
  let r := s.dropWhile isDig
  if d = [] then none
  else if r = [] ∨ r = ['\n'] then some d else none

/-- `re.search(r"(\d+)$", s)`: leftmost trailing digit run. -/
def searchDigits (s : List Char) : Option (List Char) :=
  searchOpt tryDigEnd s

/-- `get_base_id` (app.py lines 29-40): lowercase, delete every occurrence of
`.log` and then of `.out`, return the trailing digit run of the result, or the
whole processed name when there is none. -/
def get_base_id (filename : List Char) : List Char :=
  let name := replaceAll dotOut (replaceAll dotLog (pyLower filename))
  match searchDigits name with
  | some d => d
  | none => name

/-- One record of `data_map` (app.py lines 80 and 92): the contributing
filename, the optional energy and the optional specific rotation. -/
structure Rec where
  name : List Char
  energy : Option ℚ
  sr : Option ℚ
deriving DecidableEq

/-- `data_map`: a Python dict modelled as an insertion-ordered association
list with unique keys. -/
abbrev Table := List (List Char × Rec)

/-- Python dict assignment `d[k] = r`: update in place (keeping the original
position) when the key exists, append otherwise. -/
def setKey (k : List Char) (r : Rec) : Table → Table
  | [] => [(k, r)]
  | (k0, r0) :: t => if k0 = k then (k, r) :: t else (k0, r0) :: setKey k r t

/-- Python dict lookup / `k in d`. -/
def getKey (k : List Char) : Table → Option Rec
  | [] => none
  | (k0, r0) :: t => if k0 = k then some r0 else getKey k t

/-- A file as the ingestion loops see it: `(f.name, decoded content)`. -/
abbrev F := List Char × List Char

/-- Body of the energy loop (app.py lines 76-80): extract, and under Python's
truthiness test `if val:` (false for `None` and for `0.0`) assign a fresh
record — overwriting name, energy and sr of any record already at that id. -/
def stepE (f : F) (m : Table) : Table :=
  match extract_energy f.2 with
  | none => m
  | some v =>
    if v = 0 then m
    else setKey (get_base_id f.1) ⟨f.1, some v, none⟩ m

/-- Body of the SR loop (app.py lines 84-92): extract, and under `if val:`
either set `sr` on the existing record (keeping its name and energy) or create
an energy-less record. -/
def stepS (f : F) (m : Table) : Table :=
  match extract_sr f.2 with
  | none => m
  | some v =>
    if v = 0 then m
    else
      match getKey (get_base_id f.1) m with
      | some r => setKey (get_base_id f.1) ⟨r.name, r.energy, some v⟩ m
      | none => m ++ [(get_base_id f.1, ⟨f.1, none, some v⟩)]

/-- The energy loop over a whole collection, in upload order. -/
def ingestE (fs : List F) (m : Table) : Table :=
  fs.foldl (fun a f => stepE f a) m

/-- The SR loop over a whole collection, in upload order. -/
def ingestS (fs : List F) (m : Table) : Table :=
  fs.foldl (fun a f => stepS f a) m

/-- The program's actual order (app.py lines 73-92): energy collection first,
then the SR collection, starting from an empty dict. -/
def pairTableES (efs sfs : List F) : Table :=
  ingestS sfs (ingestE efs [])

/-- The reversed ingestion order: SR collection first, then the energy
collection, using the same two loop bodies. -/
def pairTableSE (efs sfs : List F) : Table :=
  ingestE efs (ingestS sfs [])

/-- `ready_data` (app.py lines 94-102): the records with both fields set, in
table order. -/
def ready_data (m : Table) : List (List Char × List Char × ℚ × ℚ) :=
  m.filterMap fun p =>
    match p.2.energy, p.2.sr with
    | some e, some s => some (p.1, p.2.name, e, s)
    | _, _ => none

/-- `TEMP` (app.py line 12), Kelvin. -/
def TEMP : ℝ := 298.15

/-- `GAS_CONST` (app.py line 13), kcal/(mol·K). -/
def GAS_CONST : ℝ := 0.001987204

/-- `AU_TO_KCAL` (app.py line 14), Hartree to kcal/mol. -/
def AU_TO_KCAL : ℝ := 627.5095

/-- `min_e` (app.py line 115): pandas column minimum over the ready energies.
The `[]` case never occurs inside the `is_ready` guard; 0 is a junk value. -/
def minList : List ℝ → ℝ
  | [] => 0
  | a :: t => t.foldl min a

/-- The ΔG column (app.py line 117): `(energy - min_e) * AU_TO_KCAL`. -/
def deltaG (es : List ℝ) (e : ℝ) : ℝ := (e - minList es) * AU_TO_KCAL

/-- The unnormalized Boltzmann factor `exp(-ΔG / (R·T))` of app.py line 118. -/
noncomputable def weight (es : List ℝ) (e : ℝ) : ℝ :=
  Real.exp (-deltaG es e / (GAS_CONST * TEMP))

/-- The `Pop (%)` column (app.py lines 118-119): the record's Boltzmann factor
over the column sum of all Boltzmann factors, times 100. -/
noncomputable def popPct (es : List ℝ) (e : ℝ) : ℝ :=
  weight es e / (es.map (weight es)).sum * 100

/-- All `Pop (%)` entries of the ready table, whose rows are (energy, sr)
pairs. -/
noncomputable def pops (l : List (ℝ × ℝ)) : List ℝ :=
  l.map fun p => popPct (l.map Prod.fst) p.1

/-- The `Contribution` column (app.py line 120): `sr * Pop/100`. -/
noncomputable def contribs (l : List (ℝ × ℝ)) : List ℝ :=
  l.map fun p => p.2 * (popPct (l.map Prod.fst) p.1 / 100)

/-- `is_ready` (app.py line 106): `len(ready_data) > 0`. -/
def is_ready (l : List (ℝ × ℝ)) : Bool := decide (0 < l.length)

/-- `final_sr` (app.py lines 107 and 113-121): initialized to `0.0` and set to
the sum of the contributions inside the `if is_ready:` block. -/
noncomputable def final_sr (l : List (ℝ × ℝ)) : ℝ :=
  if is_ready l = true then (contribs l).sum else 0

/-!  Lemmas about the pairing table primitives. -/

theorem getKey_setKey_self (k : List Char) (r : Rec) (m : Table) :
    getKey k (setKey k r m) = some r := by
  induction m with
  | nil => simp [setKey, getKey]
  | cons p t ih =>
    obtain ⟨k0, r0⟩ := p
    by_cases h : k0 = k
    · simp [setKey, getKey, h]
    · simp [setKey, getKey, h, ih]

theorem getKey_setKey_ne (k0 k : List Char) (r : Rec) (m : Table) (h : k0 ≠ k) :
    getKey k (setKey k0 r m) = getKey k m := by
  induction m with
  | nil => simp [setKey, getKey, h]
  | cons p t ih =>
    obtain ⟨k1, r1⟩ := p
    by_cases h1 : k1 = k0
    · subst h1; simp [setKey, getKey, h, ih]
    · simp [setKey, getKey, h1, ih]

theorem getKey_append_single (k k0 : List Char) (r : Rec) (m : Table) :
    getKey k (m ++ [(k0, r)]) =
      (match getKey k m with
       | some x => some x
       | none => if k0 = k then some r else none) := by
  induction m with
  | nil => simp [getKey]
  | cons p t ih =>
    obtain ⟨k1, r1⟩ := p
    by_cases h : k1 = k <;> simp [getKey, h, ih]

theorem stepE_getKey_ne (f : F) (m : Table) (k : List Char)
    (h : get_base_id f.1 ≠ k) : getKey k (stepE f m) = getKey k m := by
  unfold stepE
  cases hx : extract_energy f.2 with
  | none => rfl
  | some v =>
    by_cases hv : v = 0
    · simp [hv]
    · simp [hv, getKey_setKey_ne _ _ _ _ h]

theorem stepS_getKey_ne (f : F) (m : Table) (k : List Char)
    (h : get_base_id f.1 ≠ k) : getKey k (stepS f m) = getKey k m := by
  unfold stepS
  cases hx : extract_sr f.2 with
  | none => rfl
  | some v =>
    by_cases hv : v = 0
    · simp [hv]
    · cases hg : getKey (get_base_id f.1) m with
      | some r => simp [hv, hg, getKey_setKey_ne _ _ _ _ h]
      | none =>
        simp only [hv, hg, if_false]
        rw [getKey_append_single]
        cases getKey k m <;> simp [h]

theorem stepE_getKey_congr (f : F) (m1 m2 : Table) (k : List Char)
    (h : getKey k m1 = getKey k m2) :
    getKey k (stepE f m1) = getKey k (stepE f m2) := by
  by_cases hk : get_base_id f.1 = k
  · subst hk
    unfold stepE
    cases hx : extract_energy f.2 with
    | none => exact h
    | some v =>
      by_cases hv : v = 0
      · simpa [hv] using h
      · simp [hv, getKey_setKey_self]
  · rw [stepE_getKey_ne f m1 k hk, stepE_getKey_ne f m2 k hk, h]

theorem stepS_getKey_congr (f : F) (m1 m2 : Table) (k : List Char)
    (h : getKey k m1 = getKey k m2) :
    getKey k (stepS f m1) = getKey k (stepS f m2) := by
  by_cases hk : get_base_id f.1 = k
  · subst hk
    unfold stepS
    cases hx : extract_sr f.2 with
    | none => exact h
    | some v =>
      by_cases hv : v = 0
      · simpa [hv] using h
      · cases hg2 : getKey (get_base_id f.1) m2 with
        | some r =>
          have hg1 : getKey (get_base_id f.1) m1 = some r := h.trans hg2
          simp [hv, hg1, hg2, getKey_setKey_self]
        | none =>
          have hg1 : getKey (get_base_id f.1) m1 = none := h.trans hg2
          simp only [hv, hg1, hg2, if_false]
          rw [getKey_append_single, getKey_append_single, hg1, hg2]
  · rw [stepS_getKey_ne f m1 k hk, stepS_getKey_ne f m2 k hk, h]

theorem ingestE_cons (f : F) (t : List F) (m : Table) :
    ingestE (f :: t) m = ingestE t (stepE f m) := rfl

theorem ingestS_cons (f : F) (t : List F) (m : Table) :
    ingestS (f :: t) m = ingestS t (stepS f m) := rfl

theorem ingestE_getKey_ne (fs : List F) (m : Table) (k : List Char)
    (h : ∀ f ∈ fs, get_base_id f.1 ≠ k) :
    getKey k (ingestE fs m) = getKey k m := by
  induction fs generalizing m with
  | nil => rfl
  | cons f t ih =>
    rw [ingestE_cons, ih (stepE f m) (fun g hg => h g (List.mem_cons_of_mem f hg)),
      stepE_getKey_ne f m k (h f (List.mem_cons_self f t))]

theorem ingestS_getKey_ne (fs : List F) (m : Table) (k : List Char)
    (h : ∀ f ∈ fs, get_base_id f.1 ≠ k) :
    getKey k (ingestS fs m) = getKey k m := by
  induction fs generalizing m with
  | nil => rfl
  | cons f t ih =>
    rw [ingestS_cons, ih (stepS f m) (fun g hg => h g (List.mem_cons_of_mem f hg)),
      stepS_getKey_ne f m k (h f (List.mem_cons_self f t))]

theorem ingestE_getKey_congr (fs : List F) (m1 m2 : Table) (k : List Char)
    (h : getKey k m1 = getKey k m2) :
    getKey k (ingestE fs m1) = getKey k (ingestE fs m2) := by
  induction fs generalizing m1 m2 with
  | nil => exact h
  | cons f t ih =>
    rw [ingestE_cons, ingestE_cons]
    exact ih _ _ (stepE_getKey_congr f m1 m2 k h)

theorem ingestS_getKey_congr (fs : List F) (m1 m2 : Table) (k : List Char)
    (h : getKey k m1 = getKey k m2) :
    getKey k (ingestS fs m1) = getKey k (ingestS fs m2) := by
  induction fs generalizing m1 m2 with
  | nil => exact h
  | cons f t ih =>
    rw [ingestS_cons, ingestS_cons]
    exact ih _ _ (stepS_getKey_congr f m1 m2 k h)

/-- C1, counterexample.  One energy file and one rotation file that pair up on
the identifier `1` (so no two blobs of the same field collide, the claim's
hypothesis).  Ingesting energy first then rotation yields the ready record;
the reversed order feeds the rotation-only record into the energy loop, whose
body assigns a fresh record (app.py line 80) and thereby erases the rotation
value: the resulting tables differ in their ready/pending partition. -/
theorem c1_pairing_not_commutative :
    pairTableES [("a1.log".toList, "SCF Done: E = -100.5".toList)]
        [("b1.log".toList, "[Alpha] D = 12.5 deg.".toList)] =
      [("1".toList, ⟨"a1.log".toList, some ((-201 : ℚ) / 2), some ((25 : ℚ) / 2)⟩)] ∧
    pairTableSE [("a1.log".toList, "SCF Done: E = -100.5".toList)]
        [("b1.log".toList, "[Alpha] D = 12.5 deg.".toList)] =
      [("1".toList, ⟨"a1.log".toList, some ((-201 : ℚ) / 2), none⟩)] := by
  constructor
  · with_unfolding_all rfl
  · with_unfolding_all rfl

/-- C1, amended.  When the energy collection and the rotation collection share
no identifier at all, the two ingestion orders agree on every lookup of the
final table.  (As soon as an identifier is shared — the very situation pairing
exists for — the orders differ, see the counterexample.) -/
theorem c1_disjoint_ids_commute (efs sfs : List F) (k : List Char)
    (hdisj : ∀ e ∈ efs, ∀ s ∈ sfs, get_base_id e.1 ≠ get_base_id s.1) :
    getKey k (pairTableES efs sfs) = getKey k (pairTableSE efs sfs) := by
  by_cases hE : ∃ e ∈ efs, get_base_id e.1 = k
  · obtain ⟨e0, he0, hk0⟩ := hE
    have hS : ∀ s ∈ sfs, get_base_id s.1 ≠ k := by
      intro s hs
      rw [← hk0]
      exact fun hh => hdisj e0 he0 s hs hh.symm
    exact (ingestS_getKey_ne sfs _ k hS).trans
      (ingestE_getKey_congr efs [] (ingestS sfs []) k
        (ingestS_getKey_ne sfs [] k hS).symm)
  · push_neg at hE
    exact (ingestS_getKey_congr sfs (ingestE efs []) [] k
      (ingestE_getKey_ne efs [] k hE)).trans
      ((ingestE_getKey_ne efs (ingestS sfs []) k hE).symm)

/-- C1, witness for the amended theorem: disjoint identifiers `1` and `2`. -/
theorem c1_disjoint_ids_commute_witness :
    getKey ("1".toList)
        (pairTableES [("a1.log".toList, "SCF Done: E = -100.5".toList)]
          [("b2.log".toList, "[Alpha] D = 12.5 deg.".toList)]) =
      getKey ("1".toList)
        (pairTableSE [("a1.log".toList, "SCF Done: E = -100.5".toList)]
          [("b2.log".toList, "[Alpha] D = 12.5 deg.".toList)]) :=
  c1_disjoint_ids_commute
    [("a1.log".toList, "SCF Done: E = -100.5".toList)]
    [("b2.log".toList, "[Alpha] D = 12.5 deg.".toList)]
    ("1".toList) (by decide)

/-- C3, counterexample.  Two energy files resolving to the same identifier:
the later ingestion replaces the whole record, so the final table names only
the second file — no list of contributing source filenames survives (the
record type of the program has a single `name` string), and the ingestion
loops return only the table, so no diagnostic of the overwrite exists. -/
theorem c3_overwrite_drops_first_source :
    ingestE [("a1.log".toList, "SCF Done: E = -100.5".toList),
             ("b1.log".toList, "SCF Done: E = -200.5".toList)] [] =
      [("1".toList, ⟨"b1.log".toList, some ((-401 : ℚ) / 2), none⟩)] := by
  with_unfolding_all rfl

/-- C3, amended.  Duplicate ingestion is resolved by silent last-write-wins:
a duplicate energy observation replaces the whole record (the new source name
replaces the old one and the rotation field is reset to absent), while a
duplicate rotation observation overwrites only the rotation value, keeping
the record's original name and energy; no source list is accumulated and no
diagnostic is produced (the loops return only the table). -/
theorem c3_last_write_wins (en sn ec sc : List Char) (m : Table) (ve vs : ℚ)
    (r : Rec)
    (he : extract_energy ec = some ve) (hve : ve ≠ 0)
    (hs : extract_sr sc = some vs) (hvs : vs ≠ 0)
    (hr : getKey (get_base_id sn) m = some r) :
    getKey (get_base_id en) (stepE (en, ec) m) = some ⟨en, some ve, none⟩ ∧
    getKey (get_base_id sn) (stepS (sn, sc) m) =
      some ⟨r.name, r.energy, some vs⟩ := by
  constructor
  · simp [stepE, he, hve, getKey_setKey_self]
  · simp [stepS, hs, hvs, hr, getKey_setKey_self]

/-- C3, witness: concrete overwrites on a table already holding id `1`. -/
theorem c3_last_write_wins_witness :
    getKey (get_base_id ("a1.log".toList))
        (stepE (("a1.log".toList), ("SCF Done: E = -100.5".toList))
          [("1".toList, ⟨"x1.log".toList, some 5, some 7⟩)]) =
      some ⟨"a1.log".toList, some ((-201 : ℚ) / 2), none⟩ ∧
    getKey (get_base_id ("b1.log".toList))
        (stepS (("b1.log".toList), ("[Alpha] D = 12.5 deg.".toList))
          [("1".toList, ⟨"x1.log".toList, some 5, some 7⟩)]) =
      some ⟨"x1.log".toList, some 5, some ((25 : ℚ) / 2)⟩ :=
  c3_last_write_wins ("a1.log".toList) ("b1.log".toList)
    ("SCF Done: E = -100.5".toList) ("[Alpha] D = 12.5 deg.".toList)
    [("1".toList, ⟨"x1.log".toList, some 5, some 7⟩)]
    ((-201 : ℚ) / 2) ((25 : ℚ) / 2) ⟨"x1.log".toList, some 5, some 7⟩
    (by with_unfolding_all rfl) (by with_unfolding_all decide)
    (by with_unfolding_all rfl) (by with_unfolding_all decide)
    (by with_unfolding_all rfl)

/-- C10.  Python's truthiness guard `if val:` (app.py lines 79 and 88) is
false for the float `0.0`, so a blob whose extracted value is exactly `0.0`
is treated like a failed extraction: neither loop body changes the table, no
record is created and no field is set. -/
theorem c10_zero_value_ignored (en sn ec sc : List Char) (m : Table)
    (he : extract_energy ec = some 0) (hs : extract_sr sc = some 0) :
    stepE (en, ec) m = m ∧ stepS (sn, sc) m = m := by
  constructor
  · simp [stepE, he]
  · simp [stepS, hs]

/-- C10, witness: a zero free energy and a zero (written `-0.00`) rotation. -/
theorem c10_zero_value_ignored_witness :
    stepE (("a1.log".toList), ("SCF Done: E = 0.0".toList)) [] = [] ∧
    stepS (("b1.log".toList), ("[Alpha] D = -0.00 deg.".toList)) [] = [] :=
  c10_zero_value_ignored ("a1.log".toList) ("b1.log".toList)
    ("SCF Done: E = 0.0".toList) ("[Alpha] D = -0.00 deg.".toList) []
    (by with_unfolding_all rfl) (by with_unfolding_all rfl)

/-- C2, counterexample.  On an empty ready set the program's aggregate
variable `final_sr` holds the float `0.0` — the claim's "absent, not the
number 0.0" does not describe the code, whose result is a plain float
initialized to `0.0` (app.py line 107) next to the `is_ready` flag. -/
theorem c2_empty_aggregate_is_zero :
    final_sr [] = 0 ∧ is_ready [] = false := by
  constructor
  · simp [final_sr, is_ready]
  · rfl

/-- C2, amended.  An empty ready set is signalled by `is_ready = false`
(app.py line 106) — the "awaiting more data" state, under which no aggregate
is rendered and the export buttons are disabled, not an error — while the
aggregate variable itself keeps its `0.0` initialization rather than an
absent value. -/
theorem c2_empty_ready_state (l : List (ℝ × ℝ)) (h : l = []) :
    is_ready l = false ∧ final_sr l = 0 := by
  subst h
  exact ⟨rfl, by simp [final_sr, is_ready]⟩

/-- C2, witness. -/
theorem c2_empty_ready_state_witness :
    is_ready ([] : List (ℝ × ℝ)) = false ∧ final_sr ([] : List (ℝ × ℝ)) = 0 :=
  c2_empty_ready_state [] rfl

/-- A pattern (given by its "match here" function `f`) matches anywhere in
`s`: it matches at some start position, i.e. at the head of some suffix. -/
def matchesAnywhere (f : List Char → Option ℚ) (s : List Char) : Bool :=
  s.tails.any fun u => (f u).isSome

theorem searchOpt_isSome (f : List Char → Option ℚ) (s : List Char) :
    (searchOpt f s).isSome = matchesAnywhere f s := by
  induction s with
  | nil => simp [searchOpt, matchesAnywhere]
  | cons c t ih =>
    rw [matchesAnywhere, List.tails_cons]
    cases hf : f (c :: t) with
    | some v => simp [searchOpt, hf]
    | none => simpa [searchOpt, hf, matchesAnywhere] using ih

theorem searchOpt_eq_none (f : List Char → Option ℚ) (s : List Char)
    (h : matchesAnywhere f s = false) : searchOpt f s = none := by
  have hs := searchOpt_isSome f s
  rw [h] at hs
  cases hx : searchOpt f s with
  | none => rfl
  | some v => rw [hx] at hs; simp at hs

/-- C4.  `extract_energy` returns the value captured by the free-energy
summary pattern whenever that pattern matches anywhere in the text; when it
does not, it returns whatever the SCF pattern search yields, and when neither
pattern matches anywhere the result is `none` — by type, never an exception.
Likewise `extract_sr` returns `none` when its rotation pattern does not match
anywhere. -/
theorem c4_extraction_priority_and_absence (s : List Char) :
    (matchesAnywhere tryE1 s = true →
      extract_energy s = searchOpt tryE1 s ∧ extract_energy s ≠ none) ∧
    (matchesAnywhere tryE1 s = false →
      extract_energy s = searchOpt tryE2 s) ∧
    (matchesAnywhere tryE1 s = false → matchesAnywhere tryE2 s = false →
      extract_energy s = none) ∧
    (matchesAnywhere trySR s = false → extract_sr s = none) := by
  refine ⟨?_, ?_, ?_, ?_⟩
  · intro h
    have hs := searchOpt_isSome tryE1 s
    rw [h] at hs
    cases hx : searchOpt tryE1 s with
    | none => rw [hx] at hs; simp at hs
    | some v => simp [extract_energy, hx]
  · intro h
    rw [extract_energy, searchOpt_eq_none tryE1 s h]
  · intro h1 h2
    rw [extract_energy, searchOpt_eq_none tryE1 s h1, searchOpt_eq_none tryE2 s h2]
  · intro h
    rw [extract_sr, searchOpt_eq_none trySR s h]

/-- C4, witness: a text in which no pattern matches yields `none` from both
extractors, and a text with a free-energy line yields that line's value even
though an SCF line also matches. -/
theorem c4_extraction_witness :
    extract_energy ("no pattern here".toList) = none ∧
    extract_sr ("no pattern here".toList) = none ∧
    extract_energy
        ("Sum of electronic and thermal Free Energies= -1.5 SCF Done: a= 2.5".toList) =
      searchOpt tryE1
        ("Sum of electronic and thermal Free Energies= -1.5 SCF Done: a= 2.5".toList) :=
  ⟨(c4_extraction_priority_and_absence ("no pattern here".toList)).2.2.1
      (by decide) (by decide),
   (c4_extraction_priority_and_absence ("no pattern here".toList)).2.2.2
      (by decide),
   ((c4_extraction_priority_and_absence
      ("Sum of electronic and thermal Free Energies= -1.5 SCF Done: a= 2.5".toList)).1
      (by with_unfolding_all decide)).1⟩

/-!  The identity resolver, claim C5. -/

/-- The trailing digit run of a string, described from the right end. -/
def trailingDigits (s : List Char) : List Char :=
  (s.reverse.takeWhile isDig).reverse

/-- Drop a final newline if present: the positions at which Python's `$`
matches are exactly the ends of `stripNl`. -/
def stripNl (s : List Char) : List Char :=
  if s.getLast? = some '\n' then s.dropLast else s

/-- The identity resolver as claim C5 words it (for comparison with the
program's `get_base_id`): strip the recognized file extension from the
filename, take the run of digits at its very end, and fall back to the
extension-stripped remainder when there are no such digits. -/
def specTrailingDigitsResolver (fn : List Char) : List Char :=
  let n := if dotLog.isSuffixOf fn ∨ dotOut.isSuffixOf fn
    then fn.take (fn.length - 4) else fn
  let d := trailingDigits n
  if d = [] then n else d

theorem takeWhile_append_of_all {α : Type} (p : α → Bool) (xs ys : List α)
    (h : xs.all p = true) : (xs ++ ys).takeWhile p = xs ++ ys.takeWhile p := by
  induction xs with
  | nil => simp
  | cons a t ih =>
    rw [List.all_cons, Bool.and_eq_true] at h
    simp [List.takeWhile_cons, h.1, ih h.2]

theorem takeWhile_append_of_not_all {α : Type} (p : α → Bool) (xs ys : List α)
    (h : xs.all p = false) : (xs ++ ys).takeWhile p = xs.takeWhile p := by
  induction xs with
  | nil => simp at h
  | cons a t ih =>
    by_cases ha : p a = true
    · rw [List.all_cons, ha, Bool.true_and] at h
      simp [List.takeWhile_cons, ha, ih h]
    · have ha2 : p a = false := by simpa using ha
      simp [List.takeWhile_cons, ha2]

theorem takeWhile_of_all {α : Type} (p : α → Bool) (l : List α)
    (h : l.all p = true) : l.takeWhile p = l :=
  List.takeWhile_eq_self_iff.mpr (List.all_eq_true.mp h)

theorem dropWhile_append_of_all {α : Type} (p : α → Bool) (xs ys : List α)
    (h : xs.all p = true) : (xs ++ ys).dropWhile p = ys.dropWhile p := by
  induction xs with
  | nil => simp
  | cons a t ih =>
    rw [List.all_cons, Bool.and_eq_true] at h
    simp [List.dropWhile_cons, h.1, ih h.2]

theorem trailingDigits_of_all (s : List Char) (h : s.all isDig = true) :
    trailingDigits s = s := by
  unfold trailingDigits
  rw [takeWhile_of_all _ _ (by rwa [List.all_reverse]), List.reverse_reverse]

theorem trailingDigits_cons (c : Char) (t : List Char) :
    trailingDigits (c :: t) =
      if (isDig c && t.all isDig) = true then c :: t else trailingDigits t := by
  unfold trailingDigits
  rw [List.reverse_cons]
  by_cases hall : t.all isDig = true
  · by_cases hc : isDig c = true
    · rw [takeWhile_append_of_all _ _ _ (by rwa [List.all_reverse])]
      have h1 : List.takeWhile isDig [c] = [c] := by
        simp [List.takeWhile_cons, hc]
      rw [h1, if_pos (by rw [hc, hall]; rfl)]
      simp [List.reverse_append]
    · have hc2 : isDig c = false := by simpa using hc
      rw [takeWhile_append_of_all _ _ _ (by rwa [List.all_reverse])]
      have h1 : List.takeWhile isDig [c] = [] := by
        simp [List.takeWhile_cons, hc2]
      rw [h1, List.append_nil, List.reverse_reverse, if_neg (by rw [hc2]; simp)]
      rw [takeWhile_of_all _ _ (by rwa [List.all_reverse]), List.reverse_reverse]
  · have hall2 : t.all isDig = false := by simpa using hall
    rw [takeWhile_append_of_not_all _ _ _ (by rwa [List.all_reverse])]
    rw [if_neg (by rw [hall2]; simp)]

theorem mem_of_getLast_opt (s : List Char) (x : Char)
    (h : s.getLast? = some x) : x ∈ s := by
  induction s with
  | nil => simp at h
  | cons a t ih =>
    cases t with
    | nil =>
      rw [List.getLast?_singleton] at h
      rw [Option.some.injEq] at h
      subst h
      exact List.mem_cons_self a []
    | cons b u =>
      rw [List.getLast?_cons_cons] at h
      exact List.mem_cons_of_mem a (ih h)

theorem getLast_of_all_digits (s : List Char) (h : s.all isDig = true) :
    s.getLast? ≠ some '\n' := by
  intro hc
  have hm := mem_of_getLast_opt s _ hc
  have hd := List.all_eq_true.mp h _ hm
  exact absurd hd (by decide)

theorem eq_dropLast_append_of_getLast (s : List Char) (x : Char)
    (h : s.getLast? = some x) : s = s.dropLast ++ [x] := by
  induction s with
  | nil => simp at h
  | cons a t ih =>
    cases t with
    | nil =>
      rw [List.getLast?_singleton] at h
      rw [Option.some.injEq] at h
      subst h
      rfl
    | cons b u =>
      rw [List.getLast?_cons_cons] at h
      have := ih h
      calc a :: b :: u = a :: ((b :: u).dropLast ++ [x]) := by rw [← this]
        _ = (a :: b :: u).dropLast ++ [x] := rfl

theorem stripNl_cons (c : Char) (t : List Char) (h : t ≠ []) :
    stripNl (c :: t) = c :: stripNl t := by
  obtain ⟨b, u, rfl⟩ := List.exists_cons_of_ne_nil h
  unfold stripNl
  rw [List.getLast?_cons_cons]
  by_cases hl : (b :: u).getLast? = some '\n'
  · rw [if_pos hl, if_pos hl]
    rfl
  · rw [if_neg hl, if_neg hl]

theorem all_takeWhile {α : Type} (p : α → Bool) (l : List α) :
    (l.takeWhile p).all p = true := by
  induction l with
  | nil => rfl
  | cons a t ih =>
    by_cases ha : p a = true
    · simp [List.takeWhile_cons, ha, ih]
    · have ha2 : p a = false := by simpa using ha
      simp [List.takeWhile_cons, ha2]

theorem searchDigits_eq_spec (s : List Char) :
    searchDigits s =
      (if trailingDigits (stripNl s) = [] then none
       else some (trailingDigits (stripNl s))) := by
  induction s with
  | nil => rfl
  | cons c t ih =>
    cases ht : tryDigEnd (c :: t) with
    | some d =>
      have hstep : searchDigits (c :: t) = some d := by
        simp only [searchDigits, searchOpt, ht]
      rw [hstep]
      have hne : List.takeWhile isDig (c :: t) ≠ [] := by
        intro hh
        rw [tryDigEnd, hh] at ht
        simp at ht
      have hr : List.dropWhile isDig (c :: t) = [] ∨
          List.dropWhile isDig (c :: t) = ['\n'] := by
        by_cases hrr : List.dropWhile isDig (c :: t) = [] ∨
            List.dropWhile isDig (c :: t) = ['\n']
        · exact hrr
        · rw [tryDigEnd, if_neg hne, if_neg hrr] at ht
          simp at ht
      have hd : d = List.takeWhile isDig (c :: t) := by
        rw [tryDigEnd, if_neg hne, if_pos hr] at ht
        exact (Option.some.injEq _ _ ▸ ht : _).symm
      cases hr with
      | inl hr0 =>
        have hall : (c :: t).all isDig = true :=
          List.all_eq_true.mpr (List.dropWhile_eq_nil_iff.mp hr0)
        have hsn : stripNl (c :: t) = c :: t :=
          if_neg (getLast_of_all_digits _ hall)
        rw [hsn, trailingDigits_of_all _ hall,
          if_neg (List.cons_ne_nil c t), hd, takeWhile_of_all _ _ hall]
      | inr hr1 =>
        have hdecomp : c :: t = List.takeWhile isDig (c :: t) ++ ['\n'] := by
          conv_lhs => rw [← List.takeWhile_append_dropWhile isDig (c :: t)]
          rw [hr1]
        have hall := all_takeWhile isDig (c :: t)
        have hgl : (c :: t).getLast? = some '\n' := by
          rw [hdecomp]
          exact List.getLast?_concat _
        have hsn : stripNl (c :: t) = List.takeWhile isDig (c :: t) := by
          rw [stripNl, if_pos hgl]
          conv_lhs => rw [hdecomp]
          exact List.dropLast_concat
        rw [hsn, trailingDigits_of_all _ hall, if_neg hne, hd]
    | none =>
      have hstep : searchDigits (c :: t) = searchDigits t := by
        simp only [searchDigits, searchOpt, ht]
      rw [hstep, ih]
      suffices hsuf : trailingDigits (stripNl (c :: t)) =
          trailingDigits (stripNl t) by rw [hsuf]
      cases t with
      | nil =>
        have hc : isDig c = false := by
          by_cases hcc : isDig c = true
          · exfalso
            have h1 : List.takeWhile isDig [c] = [c] := by
              simp [List.takeWhile_cons, hcc]
            have h2 : List.dropWhile isDig [c] = [] := by
              simp [List.dropWhile_cons, hcc]
            rw [tryDigEnd, h1, h2] at ht
            simp at ht
          · simpa using hcc
        by_cases hnl : c = '\n'
        · subst hnl
          rw [show stripNl ['\n'] = [] from rfl]
          simp [stripNl]
        · have : stripNl [c] = [c] := by
            rw [stripNl, if_neg]
            rw [List.getLast?_singleton]
            simp [hnl]
          rw [this, trailingDigits_cons]
          rw [if_neg (by rw [hc]; simp)]
          simp [stripNl]
      | cons b u =>
        rw [stripNl_cons c (b :: u) (List.cons_ne_nil b u), trailingDigits_cons]
        rw [if_neg]
        intro hcond
        rw [Bool.and_eq_true] at hcond
        obtain ⟨hc, hall⟩ := hcond
        by_cases hgl : (b :: u).getLast? = some '\n'
        · have hdec := eq_dropLast_append_of_getLast (b :: u) '\n' hgl
          have hstr : stripNl (b :: u) = (b :: u).dropLast := by
            rw [stripNl, if_pos hgl]
          rw [hstr] at hall
          have hca : (c :: (b :: u).dropLast).all isDig = true := by
            rw [List.all_cons, hc, hall]
            rfl
          have hdw : List.dropWhile isDig (c :: b :: u) = ['\n'] := by
            conv_lhs => rw [show c :: b :: u = (c :: (b :: u).dropLast) ++ ['\n'] by
              rw [List.cons_append, ← hdec]]
            rw [dropWhile_append_of_all _ _ _ hca]
            rfl
          have htw : List.takeWhile isDig (c :: b :: u) ≠ [] := by
            rw [List.takeWhile_cons, hc]
            simp
          rw [tryDigEnd, if_neg htw, if_pos (Or.inr hdw)] at ht
          simp at ht
        · have hstr : stripNl (b :: u) = b :: u := by
            rw [stripNl, if_neg hgl]
          rw [hstr] at hall
          have hca : (c :: b :: u).all isDig = true := by
            rw [List.all_cons, hc, hall]
            rfl
          have hdw : List.dropWhile isDig (c :: b :: u) = [] :=
            List.dropWhile_eq_nil_iff.mpr (List.all_eq_true.mp hca)
          have htw : List.takeWhile isDig (c :: b :: u) ≠ [] := by
            rw [List.takeWhile_cons, hc]
            simp
          rw [tryDigEnd, if_neg htw, if_pos (Or.inl hdw)] at ht
          simp at ht

/-- C5, counterexample.  `get_base_id` does not strip one recognized
extension and keep the remainder: it lowercases the name and deletes every
occurrence of `.log` and `.out` anywhere in it.  On `run7.log.out` the claim's
resolver strips `.out` and, finding no trailing digits in `run7.log`, returns
`run7.log`; the program deletes both `.log` and `.out`, leaving `run7`, and
returns `7`.  On `NoDigits.log` the claimed fallback is the remainder
`NoDigits`, but the program returns the lowercased `nodigits`. -/
theorem c5_resolver_counterexample :
    get_base_id ("run7.log.out".toList) = "7".toList ∧
    specTrailingDigitsResolver ("run7.log.out".toList) = "run7.log".toList ∧
    get_base_id ("run7.log.out".toList) ≠
      specTrailingDigitsResolver ("run7.log.out".toList) ∧
    get_base_id ("NoDigits.log".toList) = "nodigits".toList ∧
    specTrailingDigitsResolver ("NoDigits.log".toList) = "NoDigits".toList := by
  refine ⟨by decide, by decide, by decide, by decide, by decide⟩

/-- C5, amended.  The resolver lowercases the filename, deletes every
occurrence of `.log` and then every occurrence of `.out` from the lowercased
name, and returns the trailing run of digits of the processed name (a run
just before one final newline also counts, mirroring Python's `$`); when the
processed name has no such run it returns the whole processed name. -/
theorem c5_resolver_characterization (fn : List Char) :
    get_base_id fn =
      (let n := replaceAll dotOut (replaceAll dotLog (pyLower fn))
       if trailingDigits (stripNl n) = [] then n
       else trailingDigits (stripNl n)) := by
  simp only [get_base_id]
  rw [searchDigits_eq_spec]
  by_cases h : trailingDigits
      (stripNl (replaceAll dotOut (replaceAll dotLog (pyLower fn)))) = [] <;>
    simp [h]

/-!  The Boltzmann aggregator, claims C6-C9. -/

/-- Add the constant `k` to every ready record's energy, keeping its sr. -/
def shiftE (k : ℝ) (l : List (ℝ × ℝ)) : List (ℝ × ℝ) :=
  l.map fun p => (p.1 + k, p.2)

theorem sum_map_mul_right_list {α : Type} (l : List α) (f : α → ℝ) (r : ℝ) :
    (l.map fun x => f x * r).sum = (l.map f).sum * r := by
  induction l with
  | nil => simp
  | cons a t ih => simp [ih, add_mul]

theorem foldl_min_shift (t : List ℝ) (a k : ℝ) :
    (t.map fun x => x + k).foldl min (a + k) = t.foldl min a + k := by
  induction t generalizing a with
  | nil => simp
  | cons b u ih =>
    simp only [List.map_cons, List.foldl_cons]
    rw [min_add_add_right, ih]

theorem minList_shift (l : List ℝ) (k : ℝ) (h : l ≠ []) :
    minList (l.map fun x => x + k) = minList l + k := by
  cases l with
  | nil => exact absurd rfl h
  | cons a t =>
    simp only [List.map_cons, minList]
    exact foldl_min_shift t a k

theorem weight_shift (es : List ℝ) (k e : ℝ) (h : es ≠ []) :
    weight (es.map fun x => x + k) (e + k) = weight es e := by
  unfold weight deltaG
  rw [minList_shift es k h]
  congr 1
  ring

theorem weights_sum_shift (es : List ℝ) (k : ℝ) (h : es ≠ []) :
    ((es.map fun x => x + k).map (weight (es.map fun x => x + k))).sum =
      (es.map (weight es)).sum := by
  rw [List.map_map]
  have hfun : (weight (es.map fun x => x + k) ∘ fun x => x + k) = weight es := by
    funext x
    exact weight_shift es k x h
  rw [hfun]

theorem popPct_shift (es : List ℝ) (k e : ℝ) (h : es ≠ []) :
    popPct (es.map fun x => x + k) (e + k) = popPct es e := by
  unfold popPct
  rw [weight_shift es k e h, weights_sum_shift es k h]

theorem shiftE_fst (k : ℝ) (l : List (ℝ × ℝ)) :
    (shiftE k l).map Prod.fst = (l.map Prod.fst).map fun x => x + k := by
  simp [shiftE, List.map_map]

theorem pops_shift (l : List (ℝ × ℝ)) (k : ℝ) (h : l ≠ []) :
    pops (shiftE k l) = pops l := by
  have hes : l.map Prod.fst ≠ [] := by
    simpa using h
  unfold pops
  rw [shiftE_fst]
  unfold shiftE
  rw [List.map_map]
  congr 1
  funext p
  show popPct ((l.map Prod.fst).map fun x => x + k) (p.1 + k) =
    popPct (l.map Prod.fst) p.1
  exact popPct_shift _ k _ hes

theorem contribs_shift (l : List (ℝ × ℝ)) (k : ℝ) (h : l ≠ []) :
    contribs (shiftE k l) = contribs l := by
  have hes : l.map Prod.fst ≠ [] := by
    simpa using h
  unfold contribs
  rw [shiftE_fst]
  unfold shiftE
  rw [List.map_map]
  congr 1
  funext p
  show p.2 * (popPct ((l.map Prod.fst).map fun x => x + k) (p.1 + k) / 100) =
    p.2 * (popPct (l.map Prod.fst) p.1 / 100)
  rw [popPct_shift _ k _ hes]

/-- C6.  Adding a constant `k` to every ready record's energy leaves every
`Pop (%)` entry and the final aggregate unchanged: the minimum shifts by `k`
too, so every ΔG — and hence every Boltzmann factor — is unchanged. -/
theorem c6_shift_invariance (l : List (ℝ × ℝ)) (k : ℝ) (h : l ≠ []) :
    pops (shiftE k l) = pops l ∧ final_sr (shiftE k l) = final_sr l := by
  refine ⟨pops_shift l k h, ?_⟩
  unfold final_sr
  have hlen : (shiftE k l).length = l.length := by simp [shiftE]
  rw [show is_ready (shiftE k l) = is_ready l by simp [is_ready, hlen]]
  rw [contribs_shift l k h]

/-- C6, witness: a two-record ready set shifted by 3. -/
theorem c6_shift_invariance_witness :
    pops (shiftE 3 [((1 : ℝ), 50), ((2 : ℝ), -20)]) =
      pops [((1 : ℝ), 50), ((2 : ℝ), -20)] ∧
    final_sr (shiftE 3 [((1 : ℝ), 50), ((2 : ℝ), -20)]) =
      final_sr [((1 : ℝ), 50), ((2 : ℝ), -20)] :=
  c6_shift_invariance [((1 : ℝ), 50), ((2 : ℝ), -20)] 3 (by simp)

/-- C7.  For a non-empty ready set the `Pop (%)` column sums to exactly 100
in real arithmetic — populations `Pop/100` sum to 1, in particular within the
claimed `1e-9` tolerance. -/
theorem c7_population_normalization (l : List (ℝ × ℝ)) (h : l ≠ []) :
    (pops l).sum = 100 ∧ |(pops l).sum / 100 - 1| ≤ 1e-9 := by
  have hes : l.map Prod.fst ≠ [] := by simpa using h
  have hpos : 0 < ((l.map Prod.fst).map (weight (l.map Prod.fst))).sum := by
    apply List.sum_pos
    · intro x hx
      obtain ⟨e, he, rfl⟩ := List.mem_map.mp hx
      exact Real.exp_pos _
    · simpa using hes
  have hsum : (pops l).sum = 100 := by
    unfold pops popPct
    have h1 : (l.map fun p =>
        weight (l.map Prod.fst) p.1 /
          ((l.map Prod.fst).map (weight (l.map Prod.fst))).sum * 100) =
        l.map fun p => weight (l.map Prod.fst) p.1 *
          (100 / ((l.map Prod.fst).map (weight (l.map Prod.fst))).sum) := by
      congr 1
      funext p
      ring
    rw [h1, sum_map_mul_right_list]
    have h2 : (l.map fun p => weight (l.map Prod.fst) p.1) =
        (l.map Prod.fst).map (weight (l.map Prod.fst)) := by
      rw [List.map_map]
      rfl
    rw [h2, ← mul_div_assoc]
    exact mul_div_cancel_left₀ 100 (ne_of_gt hpos)
  refine ⟨hsum, ?_⟩
  rw [hsum]
  norm_num

/-- C7, witness: two equal-energy records. -/
theorem c7_population_normalization_witness :
    (pops [((1 : ℝ), 50), ((1 : ℝ), -20)]).sum = 100 ∧
    |(pops [((1 : ℝ), 50), ((1 : ℝ), -20)]).sum / 100 - 1| ≤ 1e-9 :=
  c7_population_normalization [((1 : ℝ), 50), ((1 : ℝ), -20)] (by simp)

/-- C8.  A singleton ready set gets population 100% and the aggregate equals
that record's sr value exactly: ΔG is 0, the single Boltzmann factor is 1. -/
theorem c8_singleton (e s : ℝ) :
    pops [(e, s)] = [100] ∧ final_sr [(e, s)] = s := by
  have hw : weight [e] e = 1 := by
    unfold weight deltaG minList
    simp [Real.exp_zero]
  constructor
  · unfold pops popPct
    simp [hw]
  · unfold final_sr contribs popPct
    simp [is_ready, hw]

set_option maxHeartbeats 2000000

/-- C9.  The concrete two-conformer scenario: energies -100.000000 Ha with
sr +50.0 and -99.998000 Ha with sr -20.0, under the program's fixed constants
T = 298.15, R = 0.001987204 and 627.5095 Ha→kcal/mol, give a Boltzmann
averaged rotation within 0.01 of 42.48 degrees.  The proof brackets the one
non-trivial Boltzmann factor exp(-ΔG/RT) by splitting off exp(-2) (bounded
through the nine-digit bounds on e) and bounding the small remainder with the
fourth-order Taylor estimate of the exponential. -/
theorem c9_concrete_scenario :
    |final_sr [((-100 : ℝ), 50), ((-99.998 : ℝ), -20)] - 42.48| ≤ 0.01 := by
  have hmin : minList [(-100 : ℝ), (-99.998 : ℝ)] = -100 := by
    show List.foldl min (-100 : ℝ) [(-99.998 : ℝ)] = -100
    simp only [List.foldl_cons, List.foldl_nil]
    exact min_eq_left (by norm_num)
  have hw1 : weight [(-100 : ℝ), (-99.998 : ℝ)] (-100) = 1 := by
    unfold weight deltaG
    rw [hmin]
    norm_num [Real.exp_zero]
  set w := weight [(-100 : ℝ), (-99.998 : ℝ)] (-99.998) with hwdef
  have hwexp : w =
      Real.exp (-(((-99.998 : ℝ) - -100) * AU_TO_KCAL) / (GAS_CONST * TEMP)) := by
    rw [hwdef]
    unfold weight deltaG
    rw [hmin]
  have harg1 : -(((-99.998 : ℝ) - -100) * AU_TO_KCAL) / (GAS_CONST * TEMP) <
      -2.1182296 := by
    unfold AU_TO_KCAL GAS_CONST TEMP
    norm_num
  have harg2 : (-2.1182297 : ℝ) <
      -(((-99.998 : ℝ) - -100) * AU_TO_KCAL) / (GAS_CONST * TEMP) := by
    unfold AU_TO_KCAL GAS_CONST TEMP
    norm_num
  have hwub : w < Real.exp (-2.1182296 : ℝ) := by
    rw [hwexp]
    exact Real.exp_lt_exp.mpr harg1
  have hwlb : Real.exp (-2.1182297 : ℝ) < w := by
    rw [hwexp]
    exact Real.exp_lt_exp.mpr harg2
  have he1lo := Real.exp_one_gt_d9
  have he1hi := Real.exp_one_lt_d9
  have hsq_lo : (7.389056095 : ℝ) < Real.exp 1 * Real.exp 1 := by
    nlinarith [he1lo, Real.exp_pos 1]
  have hsq_hi : Real.exp 1 * Real.exp 1 < 7.3890561 := by
    nlinarith [he1hi, he1lo, Real.exp_pos 1]
  have hexp2 : Real.exp (-2 : ℝ) = (Real.exp 1 * Real.exp 1)⁻¹ := by
    rw [← Real.exp_add, ← Real.exp_neg]
    congr 1
    norm_num
  have hxinv : (Real.exp 1 * Real.exp 1) * (Real.exp 1 * Real.exp 1)⁻¹ = 1 :=
    mul_inv_cancel₀ (by positivity)
  have hinvpos : (0 : ℝ) < (Real.exp 1 * Real.exp 1)⁻¹ :=
    inv_pos.mpr (mul_pos (Real.exp_pos 1) (Real.exp_pos 1))
  have he2lo : (0.13533528 : ℝ) < Real.exp (-2 : ℝ) := by
    rw [hexp2]
    nlinarith [hxinv, hsq_hi, hinvpos]
  have he2hi : Real.exp (-2 : ℝ) < 0.13533529 := by
    rw [hexp2]
    nlinarith [hxinv, hsq_lo, hinvpos]
  have habs1 : |(-0.1182297 : ℝ)| = 0.1182297 := by
    rw [abs_of_nonpos (by norm_num)]
    norm_num
  have habs2 : |(-0.1182296 : ℝ)| = 0.1182296 := by
    rw [abs_of_nonpos (by norm_num)]
    norm_num
  have hsum1 : (∑ m ∈ Finset.range 4, (-0.1182297 : ℝ) ^ m / m.factorial) =
      1776967980055990229309 / 2000000000000000000000 := by
    norm_num [Finset.sum_range_succ, Nat.factorial]
  have hsum2 : (∑ m ∈ Finset.range 4, (-0.1182296 : ℝ) ^ m / m.factorial) =
      10411922799655577597 / 11718750000000000000 := by
    norm_num [Finset.sum_range_succ, Nat.factorial]
  have hb1 := @Real.exp_bound (-0.1182297 : ℝ)
    (by rw [habs1]; norm_num) 4 (by norm_num)
  have hb2 := @Real.exp_bound (-0.1182296 : ℝ)
    (by rw [habs2]; norm_num) 4 (by norm_num)
  rw [hsum1, habs1] at hb1
  rw [hsum2, habs2] at hb2
  have hb1e : |Real.exp (-0.1182297 : ℝ) -
      1776967980055990229309 / 2000000000000000000000| ≤ 0.0000102 :=
    le_trans hb1 (by norm_num [Nat.factorial])
  have hb2e : |Real.exp (-0.1182296 : ℝ) -
      10411922799655577597 / 11718750000000000000| ≤ 0.0000102 :=
    le_trans hb2 (by norm_num [Nat.factorial])
  rw [abs_le] at hb1e hb2e
  have hdlo : (0.888473 : ℝ) < Real.exp (-0.1182297 : ℝ) := by
    have h1 := hb1e.1
    linarith
  have hdhi : Real.exp (-0.1182296 : ℝ) < 0.888503 := by
    have h2 := hb2e.2
    linarith
  have hsplit1 : Real.exp (-2.1182297 : ℝ) =
      Real.exp (-2 : ℝ) * Real.exp (-0.1182297 : ℝ) := by
    rw [← Real.exp_add]
    congr 1
    norm_num
  have hsplit2 : Real.exp (-2.1182296 : ℝ) =
      Real.exp (-2 : ℝ) * Real.exp (-0.1182296 : ℝ) := by
    rw [← Real.exp_add]
    congr 1
    norm_num
  have hwlo2 : (0.1202417 : ℝ) < w := by
    have h1 : (0.1202417 : ℝ) < Real.exp (-2.1182297 : ℝ) := by
      rw [hsplit1]
      nlinarith [he2lo, hdlo, Real.exp_pos (-2 : ℝ), Real.exp_pos (-0.1182297 : ℝ)]
    linarith [hwlb]
  have hwhi2 : w < 0.1202459 := by
    have h1 : Real.exp (-2.1182296 : ℝ) < 0.1202459 := by
      rw [hsplit2]
      nlinarith [he2hi, hdhi, he2lo, hdlo, Real.exp_pos (-2 : ℝ),
        Real.exp_pos (-0.1182296 : ℝ)]
    linarith [hwub]
  have hwpos : (0 : ℝ) < w := by
    rw [hwexp]
    exact Real.exp_pos _
  have hS : (0 : ℝ) < 1 + w := by linarith
  have hig : is_ready [((-100 : ℝ), 50), ((-99.998 : ℝ), -20)] = true := by
    decide
  have hA : final_sr [((-100 : ℝ), 50), ((-99.998 : ℝ), -20)] =
      (50 - 20 * w) / (1 + w) := by
    simp only [final_sr, contribs, popPct, hig, if_true, List.map_cons,
      List.map_nil, List.sum_cons, List.sum_nil, add_zero]
    rw [hw1, ← hwdef]
    field_simp
    ring
  have hup : (50 - 20 * w) / (1 + w) ≤ 42.49 := by
    rw [div_le_iff₀ hS]
    linarith [hwlo2]
  have hdown : (42.47 : ℝ) ≤ (50 - 20 * w) / (1 + w) := by
    rw [le_div_iff₀ hS]
    linarith [hwhi2]
  rw [hA, abs_le]
  constructor <;> linarith

set_option maxHeartbeats 200000

end SRB
